import Mathlib

/-!
# Verification of the `qp_translator` query-parameter translation core

Shallow embedding of `src/qp_translator/qp_translator/qp_translator.py`,
`schemes.py` and `str_parsers/str_parsers.py`.

Modelling notes:

* A Python `dict` is modelled as an association list `List (String × α)`
  together with `dictInsert` (assignment `d[k] = v`: replaces the value in
  place when the key is present, otherwise appends — exactly Python's
  insertion-order semantics) and `dictLookup` (first entry with the key;
  keys are unique whenever the list was built by `dictInsert`).
* The request object is a starlette `QueryParams` (an `ImmutableMultiDict`).
  Its constructor stores both the raw item list and
  `self._dict = {k: v for k, v in items}`; consequently `qps.get(k)` /
  `qps[k]` return the value of the *last* item with key `k`,
  `qps.keys()` is the deduplicated key list in order of first appearance,
  and `qps.getlist(k)` returns all values for `k` in order of appearance.
  We model a request as the raw item list `List (String × String)` and
  derive the dict view with `dictInsert`.
* Exceptions become `Except ParseError`:
  `HTTPException(400, detail)` is `ParseError.badRequest detail`, and the
  `Warning` raised when a filter's parser raises something other than
  `ValueError` is `ParseError.internal msg`.
* A filter's `t_parser` may succeed, raise `ValueError` (message carried)
  or raise any other exception; this is the `ParserOut` type.  The
  predicate dictionaries produced by `q_func` (`dict[str, Any]` in Python)
  are modelled as association lists `Pred V`; the empty predicate `{}`
  assigned on exclusion is `[]`.
* The value type `T` of `Filter[T]` is a type parameter `V`.
-/

namespace QpTrans

/-- Outcome of calling a filter's `t_parser` on one string: a value, a
`ValueError` with its message, or any other exception. -/
inductive ParserOut (V : Type) where
  | ok (v : V)
  | valueError (msg : String)
  | otherError (msg : String)
deriving DecidableEq

/-- Predicate dictionary produced by a filter's `q_func`
(`dict[str, Any]` in the source). -/
abbrev Pred (V : Type) := List (String × V)

/-- `Filter` of `schemes.py`: one query-parameter descriptor. -/
structure Filter (V : Type) where
  q_func : (V ⊕ List V) → Pred V
  tParser : String → ParserOut V
  many : Bool := false
  exclusions : List String := []
  is_required : Bool := false
  description : Option String := none

/-- Errors surfaced by `parse`: `HTTPException(400, detail)` or the
`Warning("t_parser can only raise a ValueError")` internal condition. -/
inductive ParseError where
  | badRequest (detail : String)
  | internal (msg : String)
deriving DecidableEq

/-- `ParseResult` of `schemes.py`. -/
structure ParseResult (V : Type) where
  query_list : List (Pred V) := []
  sort : List String := []
  limit : Option Int := none
  offset : Option Int := none
deriving DecidableEq

/-- First value bound to `k` in an association list — Python `d[k]` for a
dict built with `dictInsert` (keys unique). -/
def dictLookup (d : List (String × α)) (k : String) : Option α :=
  match d with
  | [] => none
  | p :: rest => if p.1 = k then some p.2 else dictLookup rest k

/-- Python dict assignment `d[k] = v`: replace in place when the key is
present, append otherwise. -/
def dictInsert (d : List (String × α)) (k : String) (v : α) : List (String × α) :=
  match dictLookup d k with
  | some _ => d.map (fun p => if p.1 = k then (k, v) else p)
  | none => d ++ [(k, v)]

/-- Python `d.update(o)`: assign every item of `o` into `d`, in order. -/
def dictUpdate (d o : List (String × α)) : List (String × α) :=
  o.foldl (fun acc p => dictInsert acc p.1 p.2) d

/-- Boolean membership in a list of strings. -/
def memB (x : String) : List String → Bool
  | [] => false
  | y :: rest => if y = x then true else memB x rest

/-- Python `set.add`. -/
def setInsert (l : List String) (x : String) : List String :=
  if x ∈ l then l else l ++ [x]

/-- A starlette `QueryParams`: the raw decoded item list, a key possibly
repeating. -/
abbrev QueryParams := List (String × String)

/-- The `self._dict = \x7bk: v for k, v in items\x7d` view of a request. -/
def qpDict (qps : QueryParams) : List (String × String) :=
  dictUpdate [] qps

/-- `qps.get(k)`: the dict view's value — the last occurrence's value. -/
def qpGet (qps : QueryParams) (k : String) : Option String :=
  dictLookup (qpDict qps) k

/-- `qps.getlist(k)`: every value bound to `k`, in order of appearance. -/
def qpGetlist (qps : QueryParams) (k : String) : List String :=
  (qps.filter (fun p => p.1 = k)).map Prod.snd

/-- `qps.keys()`: deduplicated keys in order of first appearance. -/
def qpKeys (qps : QueryParams) : List String :=
  (qpDict qps).map Prod.fst

/-- The registry attached to a translator type: `__filters__` and
`__required_filter_set__` (the documentation string is not modelled). -/
structure QPTranslator (V : Type) where
  filters : List (String × Filter V) := []
  required_filter_set : List String := []

/-- `QPTranslatorMetaclass.__new__`: merge the bases' resolved `__filters__`
in base-list order, then the namespace's own `__filters__`; the required
set is collected from the namespace's own `__filters__` only. -/
def QPTranslatorMetaclass.new (bases : List (QPTranslator V))
    (namespaceFilters : List (String × Filter V)) : QPTranslator V :=
  { filters := dictUpdate (bases.foldl (fun acc b => dictUpdate acc b.filters) [])
      namespaceFilters
    required_filter_set :=
      (namespaceFilters.filter (fun p => p.2.is_required)).map Prod.fst }

/-- Python `str.isdigit()` combined with the truthiness guard
`limit and limit.isdigit()`: nonempty and all (ASCII) digits. -/
def pyIsDigit (s : String) : Bool :=
  !s.isEmpty && s.all Char.isDigit

/-- `int(s)` on a digits-only string. -/
def strToInt (s : String) : Int :=
  Int.ofNat (s.foldl (fun n c => 10 * n + (c.toNat - 48)) 0)

/-- The reserved keys of `parse`, never matched against filters. -/
def reservedKeys : List String := ["limit", "offset", "sort_by"]

/-- The mutable state of `parse`'s per-key loop: the `query` dict and the
`invalid_qps` set (modelled as an insertion-ordered duplicate-free list). -/
structure LoopState (V : Type) where
  query : List (String × Pred V) := []
  invalid : List String := []

/-- The list comprehension `[f.t_parser(p) for p in qps.getlist(param)]`:
parse each value left to right, the first exception propagating. -/
def mapParser (p : String → ParserOut V) : List String → ParserOut (List V)
  | [] => .ok []
  | s :: rest =>
    match p s with
    | .ok v =>
      match mapParser p rest with
      | .ok vs => .ok (v :: vs)
      | .valueError m => .valueError m
      | .otherError m => .otherError m
    | .valueError m => .valueError m
    | .otherError m => .otherError m

/-- The `try: ... except ValueError ... except Exception` block of `parse`:
parse the key's value(s), translating `ValueError` into an immediate 400
and any other parser exception into the internal `Warning`. -/
def parseVals (qps : QueryParams) (f : Filter V) (param : String) :
    Except ParseError (V ⊕ List V) :=
  if f.many then
    match mapParser f.tParser (qpGetlist qps param) with
    | .ok vs => .ok (.inr vs)
    | .valueError m => .error (.badRequest m)
    | .otherError _ => .error (.internal "t_parser can only raise a ValueError")
  else
    match f.tParser ((qpGet qps param).getD "") with
    | .ok v => .ok (.inl v)
    | .valueError m => .error (.badRequest m)
    | .otherError _ => .error (.internal "t_parser can only raise a ValueError")

/-- One iteration of `parse`'s `for param in qp_keys` loop. -/
def processParam (cls : QPTranslator V) (qps : QueryParams)
    (st : LoopState V) (param : String) : Except ParseError (LoopState V) :=
  if param ∈ reservedKeys ∨ (dictLookup st.query param).isSome = true then
    .ok st
  else
    match dictLookup cls.filters param with
    | none => .ok { query := st.query, invalid := setInsert st.invalid param }
    | some f =>
      if f.exclusions.any (fun e => memB e (qpKeys qps)) then
        .ok { query := dictInsert st.query param [], invalid := st.invalid }
      else
        match parseVals qps f param with
        | .error e => .error e
        | .ok value =>
          .ok { query := dictInsert st.query param (f.q_func value)
                invalid := st.invalid }

/-- The loop itself: run `processParam` over the remaining keys, a raised
exception aborting the rest. -/
def runLoop (cls : QPTranslator V) (qps : QueryParams)
    (st : LoopState V) : List String → Except ParseError (LoopState V)
  | [] => .ok st
  | p :: rest =>
    match processParam cls qps st p with
    | .error e => .error e
    | .ok st' => runLoop cls qps st' rest

/-- The whole per-key loop of `parse`, starting from empty state. -/
def processParams (cls : QPTranslator V) (qps : QueryParams) :
    Except ParseError (LoopState V) :=
  runLoop cls qps { query := [], invalid := [] } (qpKeys qps)

/-- The names of `cls.__required_filter_set__` missing from the resolved
query keys (`__required_filter_set__ - set(existing_filters)`). -/
def undefinedRequired (cls : QPTranslator V) (existing : List String) : List String :=
  cls.required_filter_set.filter (fun n => ¬ n ∈ existing)

/-- `QPTranslator._check_required_filters`. -/
def checkRequiredFilters (cls : QPTranslator V) (existing : List String) :
    Except ParseError Unit :=
  if cls.required_filter_set = [] then .ok ()
  else if undefinedRequired cls existing = [] then .ok ()
  else .error (.badRequest
    ("Required query params: " ++ String.intercalate ", " (undefinedRequired cls existing)))

/-- The `limit` / `offset` extraction of `parse`:
`int(v) if v and v.isdigit() else None`. -/
def extractPage (qps : QueryParams) (key : String) : Option Int :=
  match qpGet qps key with
  | some s => if pyIsDigit s then some (strToInt s) else none
  | none => none

/-- `QPTranslator.parse`.  (The pagination and sort extraction is written
after the loop here; the source computes it before the loop, but both are
pure reads of `qps`, so the order is immaterial.) -/
def QPTranslator.parse (cls : QPTranslator V) (qps : QueryParams) :
    Except ParseError (ParseResult V) :=
  match processParams cls qps with
  | .error e => .error e
  | .ok st =>
    if st.invalid = [] then
      match checkRequiredFilters cls (st.query.map Prod.fst) with
      | .error e => .error e
      | .ok _ =>
        .ok { query_list := st.query.map Prod.snd
              sort := qpGetlist qps "sort_by"
              limit := extractPage qps "limit"
              offset := extractPage qps "offset" }
    else
      .error (.badRequest
        ("Invalid query params: " ++ String.intercalate ", " st.invalid))

/-- `bool_parser` of `str_parsers.py`. -/
def boolParser (v : String) : ParserOut Bool :=
  if ¬ v ∈ ["false", "true"] then
    .valueError "Field with bool must be 'false' or 'true'"
  else
    .ok (v != "false")

/-! ## Association-list (Python dict) lemmas -/

/-- `Option` alternative with the first operand taking priority. -/
def optOr (a b : Option α) : Option α :=
  match a with
  | some x => some x
  | none => b

/-- The value of the last item of `l` whose key is `n`. -/
def valsLast (l : List (String × α)) (n : String) : Option α :=
  ((l.filter (fun p => p.1 = n)).map Prod.snd).getLast?

theorem optOr_none (a : Option α) : optOr a none = a := by
  cases a <;> rfl

theorem optOr_some (x : α) (b : Option α) : optOr (some x) b = some x := rfl

theorem optOr_assoc (a b c : Option α) :
    optOr (optOr a b) c = optOr a (optOr b c) := by
  cases a <;> rfl

theorem dictLookup_nil (k : String) : dictLookup ([] : List (String × α)) k = none := rfl

theorem dictLookup_cons (p : String × α) (rest : List (String × α)) (k : String) :
    dictLookup (p :: rest) k = if p.1 = k then some p.2 else dictLookup rest k := rfl

theorem dictLookup_single (k n : String) (v : α) :
    dictLookup [(k, v)] n = if k = n then some v else none := rfl

theorem dictLookup_append (a b : List (String × α)) (k : String) :
    dictLookup (a ++ b) k = optOr (dictLookup a k) (dictLookup b k) := by
  induction a with
  | nil => rfl
  | cons p rest ih =>
    rw [List.cons_append, dictLookup_cons, dictLookup_cons]
    by_cases h : p.1 = k
    · rw [if_pos h, if_pos h, optOr_some]
    · rw [if_neg h, if_neg h, ih]

/-- Keys not bound in the dict look up to `none`. -/
theorem dictLookup_eq_none_iff (d : List (String × α)) (k : String) :
    dictLookup d k = none ↔ k ∉ d.map Prod.fst := by
  induction d with
  | nil => simp [dictLookup_nil]
  | cons p rest ih =>
    rw [dictLookup_cons, List.map_cons, List.mem_cons]
    by_cases h : p.1 = k
    · rw [if_pos h]
      simp [h]
    · rw [if_neg h, ih]
      constructor
      · intro hk hc
        rcases hc with hc | hc
        · exact h hc.symm
        · exact hk hc
      · intro hk hc
        exact hk (Or.inr hc)

theorem dictLookup_isSome_iff (d : List (String × α)) (k : String) :
    (dictLookup d k).isSome = true ↔ k ∈ d.map Prod.fst := by
  rw [Option.isSome_iff_ne_none, ne_eq, dictLookup_eq_none_iff, not_not]

/-- Replacement does not touch entries with other keys. -/
theorem dictLookup_map_replace (d : List (String × α)) (k n : String) (v : α)
    (hnk : n ≠ k) :
    dictLookup (d.map (fun p => if p.1 = k then (k, v) else p)) n = dictLookup d n := by
  induction d with
  | nil => rfl
  | cons p rest ih =>
    rw [List.map_cons]
    by_cases h : p.1 = k
    · rw [if_pos h, dictLookup_cons, dictLookup_cons]
      have h1 : ¬ ((k, v) : String × α).1 = n := fun hc => hnk hc.symm
      have h2 : ¬ p.1 = n := by
        rw [h]
        exact fun hc => hnk hc.symm
      rw [if_neg h1, if_neg h2, ih]
    · rw [if_neg h, dictLookup_cons, dictLookup_cons]
      by_cases hpn : p.1 = n
      · rw [if_pos hpn, if_pos hpn]
      · rw [if_neg hpn, if_neg hpn, ih]

/-- Replacement rebinds the key when it is present. -/
theorem dictLookup_map_replace_self (d : List (String × α)) (k : String) (v w : α)
    (hk : dictLookup d k = some w) :
    dictLookup (d.map (fun p => if p.1 = k then (k, v) else p)) k = some v := by
  induction d with
  | nil => simp [dictLookup_nil] at hk
  | cons p rest ih =>
    rw [List.map_cons]
    by_cases h : p.1 = k
    · rw [if_pos h, dictLookup_cons]
      have h1 : ((k, v) : String × α).1 = k := rfl
      rw [if_pos h1]
    · rw [dictLookup_cons, if_neg h] at hk
      rw [if_neg h, dictLookup_cons, if_neg h]
      exact ih hk

/-- Master lemma for `dictInsert`: lookup after assignment. -/
theorem dictLookup_dictInsert (d : List (String × α)) (k n : String) (v : α) :
    dictLookup (dictInsert d k v) n = if n = k then some v else dictLookup d n := by
  unfold dictInsert
  cases hk : dictLookup d k with
  | some w =>
    by_cases h : n = k
    · subst h
      rw [if_pos rfl]
      exact dictLookup_map_replace_self d n v w hk
    · rw [if_neg h]
      exact dictLookup_map_replace d k n v h
  | none =>
    rw [dictLookup_append, dictLookup_single]
    by_cases h : n = k
    · subst h
      rw [if_pos rfl, if_pos rfl, hk]
      rfl
    · rw [if_neg (fun hc => h hc.symm), if_neg h, optOr_none]

theorem dictInsert_keys_of_mem (d : List (String × α)) (k : String) (v w : α)
    (hk : dictLookup d k = some w) :
    (dictInsert d k v).map Prod.fst = d.map Prod.fst := by
  unfold dictInsert
  rw [hk, List.map_map]
  apply List.map_congr_left
  intro p _
  by_cases h : p.1 = k
  · simp only [Function.comp_apply, if_pos h]
    exact h.symm
  · simp only [Function.comp_apply, if_neg h]

/-- `dictInsert` preserves uniqueness of keys. -/
theorem dictInsert_nodupKeys (d : List (String × α)) (k : String) (v : α)
    (hd : (d.map Prod.fst).Nodup) : ((dictInsert d k v).map Prod.fst).Nodup := by
  cases hk : dictLookup d k with
  | some w =>
    rw [dictInsert_keys_of_mem d k v w hk]
    exact hd
  | none =>
    unfold dictInsert
    rw [hk, List.map_append]
    have hkd : k ∉ d.map Prod.fst := (dictLookup_eq_none_iff d k).mp hk
    rw [List.nodup_append]
    refine ⟨hd, List.nodup_singleton k, ?_⟩
    intro a ha hb
    rw [List.map_cons, List.map_nil, List.mem_singleton] at hb
    subst hb
    exact hkd ha

theorem getLast?_cons_optOr (x : α) (l : List α) :
    (x :: l).getLast? = optOr l.getLast? (some x) := by
  cases l with
  | nil => rfl
  | cons y r =>
    have h : (y :: r).getLast?.isSome := List.getLast?_isSome.mpr (by simp)
    obtain ⟨z, hz⟩ := Option.isSome_iff_exists.mp h
    rw [List.getLast?_cons_cons, hz]
    rfl

/-- Master lemma for folded assignment (`dictUpdate`, `qpDict`): the last
binding in the update list wins, else the original dict's binding. -/
theorem dictLookup_dictUpdate (o d : List (String × α)) (n : String) :
    dictLookup (dictUpdate d o) n = optOr (valsLast o n) (dictLookup d n) := by
  induction o generalizing d with
  | nil =>
    show dictLookup d n = optOr none (dictLookup d n)
    rfl
  | cons p rest ih =>
    show dictLookup (dictUpdate (dictInsert d p.1 p.2) rest) n = _
    rw [ih, dictLookup_dictInsert]
    by_cases h : p.1 = n
    · have hvals : valsLast (p :: rest) n = optOr (valsLast rest n) (some p.2) := by
        unfold valsLast
        rw [List.filter_cons, if_pos (by simp [h]), List.map_cons]
        exact getLast?_cons_optOr p.2 _
      rw [if_pos h.symm, hvals, optOr_assoc, optOr_some]
    · have hvals : valsLast (p :: rest) n = valsLast rest n := by
        unfold valsLast
        rw [List.filter_cons, if_neg (by simp [h])]
      rw [if_neg (fun hc => h hc.symm), hvals]

theorem dictUpdate_nodupKeys (o d : List (String × α))
    (hd : (d.map Prod.fst).Nodup) : ((dictUpdate d o).map Prod.fst).Nodup := by
  induction o generalizing d with
  | nil => exact hd
  | cons p rest ih =>
    exact ih (dictInsert d p.1 p.2) (dictInsert_nodupKeys d p.1 p.2 hd)

/-! ## Request (`QueryParams`) lemmas -/

theorem memB_iff (x : String) (l : List String) : memB x l = true ↔ x ∈ l := by
  induction l with
  | nil => simp [memB]
  | cons y rest ih =>
    rw [memB, List.mem_cons]
    by_cases h : y = x
    · simp [h]
    · rw [if_neg h, ih]
      have hxy : ¬ x = y := fun hc => h hc.symm
      constructor
      · exact fun hm => Or.inr hm
      · rintro (hc | hc)
        · exact absurd hc hxy
        · exact hc

/-- `qps.get(k)` is the value of the last item with key `k`. -/
theorem qpGet_eq_valsLast (qps : QueryParams) (k : String) :
    qpGet qps k = valsLast qps k := by
  rw [qpGet, qpDict, dictLookup_dictUpdate, dictLookup_nil, optOr_none]

theorem qpKeys_nodup (qps : QueryParams) : (qpKeys qps).Nodup := by
  rw [qpKeys, qpDict]
  exact dictUpdate_nodupKeys qps [] List.nodup_nil

/-- The request's key set contains every key that occurs in the raw item
list — the reserved keys included. -/
theorem mem_qpKeys_iff (qps : QueryParams) (k : String) :
    k ∈ qpKeys qps ↔ ∃ v, (k, v) ∈ qps := by
  rw [qpKeys, ← dictLookup_isSome_iff, qpDict, dictLookup_dictUpdate,
    dictLookup_nil, optOr_none, valsLast]
  constructor
  · intro h
    have hne := List.getLast?_isSome.mp h
    obtain ⟨v, hv⟩ := List.exists_mem_of_ne_nil _ hne
    obtain ⟨p, hp, hpv⟩ := List.mem_map.mp hv
    obtain ⟨hpq, hpk⟩ := List.mem_filter.mp hp
    have hk : p.1 = k := by simpa using hpk
    refine ⟨p.2, ?_⟩
    have hpe : (k, p.2) = p := by
      rw [← hk]
    rw [hpe]
    exact hpq
  · rintro ⟨v, hv⟩
    have hm : ((k, v) : String × String) ∈ qps.filter (fun p => p.1 = k) :=
      List.mem_filter.mpr ⟨hv, by simp⟩
    have hm2 : v ∈ (qps.filter (fun p => p.1 = k)).map Prod.snd :=
      List.mem_map_of_mem Prod.snd hm
    exact List.getLast?_isSome.mpr (List.ne_nil_of_mem hm2)

/-! ## Per-key loop lemmas -/

theorem processParam_reserved (cls : QPTranslator V) (qps : QueryParams)
    (st : LoopState V) (param : String) (h : param ∈ reservedKeys) :
    processParam cls qps st param = .ok st := by
  rw [processParam, if_pos (Or.inl h)]

theorem processParam_seen (cls : QPTranslator V) (qps : QueryParams)
    (st : LoopState V) (param : String) (h : (dictLookup st.query param).isSome = true) :
    processParam cls qps st param = .ok st := by
  rw [processParam, if_pos (Or.inr h)]

theorem processParam_unknown (cls : QPTranslator V) (qps : QueryParams)
    (st : LoopState V) (param : String) (h1 : ¬ param ∈ reservedKeys)
    (h2 : dictLookup st.query param = none)
    (h3 : dictLookup cls.filters param = none) :
    processParam cls qps st param
      = .ok { query := st.query, invalid := setInsert st.invalid param } := by
  rw [processParam, if_neg (by simp [h1, h2]), h3]

theorem processParam_excluded (cls : QPTranslator V) (qps : QueryParams)
    (st : LoopState V) (param : String) (f : Filter V) (h1 : ¬ param ∈ reservedKeys)
    (h2 : dictLookup st.query param = none)
    (h3 : dictLookup cls.filters param = some f)
    (h4 : f.exclusions.any (fun e => memB e (qpKeys qps)) = true) :
    processParam cls qps st param
      = .ok { query := dictInsert st.query param [], invalid := st.invalid } := by
  rw [processParam, if_neg (by simp [h1, h2]), h3]
  simp only [h4, if_true]

theorem processParam_parsed (cls : QPTranslator V) (qps : QueryParams)
    (st : LoopState V) (param : String) (f : Filter V) (value : V ⊕ List V)
    (h1 : ¬ param ∈ reservedKeys) (h2 : dictLookup st.query param = none)
    (h3 : dictLookup cls.filters param = some f)
    (h4 : f.exclusions.any (fun e => memB e (qpKeys qps)) = false)
    (h5 : parseVals qps f param = .ok value) :
    processParam cls qps st param
      = .ok { query := dictInsert st.query param (f.q_func value)
              invalid := st.invalid } := by
  rw [processParam, if_neg (by simp [h1, h2]), h3]
  simp only [h4, Bool.false_eq_true, if_false, h5]

theorem processParam_failed (cls : QPTranslator V) (qps : QueryParams)
    (st : LoopState V) (param : String) (f : Filter V) (e : ParseError)
    (h1 : ¬ param ∈ reservedKeys) (h2 : dictLookup st.query param = none)
    (h3 : dictLookup cls.filters param = some f)
    (h4 : f.exclusions.any (fun e => memB e (qpKeys qps)) = false)
    (h5 : parseVals qps f param = .error e) :
    processParam cls qps st param = .error e := by
  rw [processParam, if_neg (by simp [h1, h2]), h3]
  simp only [h4, Bool.false_eq_true, if_false, h5]

/-- Exhaustive case analysis of one successful loop iteration. -/
theorem processParam_ok_cases (cls : QPTranslator V) (qps : QueryParams)
    (st st' : LoopState V) (param : String)
    (hok : processParam cls qps st param = .ok st') :
    (st' = st ∧ (param ∈ reservedKeys ∨ (dictLookup st.query param).isSome = true))
    ∨ (¬ param ∈ reservedKeys ∧ dictLookup st.query param = none
        ∧ dictLookup cls.filters param = none
        ∧ st' = { query := st.query, invalid := setInsert st.invalid param })
    ∨ (∃ f, ¬ param ∈ reservedKeys ∧ dictLookup st.query param = none
        ∧ dictLookup cls.filters param = some f
        ∧ ((f.exclusions.any (fun e => memB e (qpKeys qps)) = true
              ∧ st' = { query := dictInsert st.query param [], invalid := st.invalid })
           ∨ (f.exclusions.any (fun e => memB e (qpKeys qps)) = false
              ∧ ∃ value, parseVals qps f param = .ok value
              ∧ st' = { query := dictInsert st.query param (f.q_func value)
                        invalid := st.invalid }))) := by
  rw [processParam] at hok
  split at hok
  · next hc =>
      injection hok with h
      exact Or.inl ⟨h.symm, hc⟩
  · next hc =>
      push_neg at hc
      obtain ⟨hres, hseen⟩ := hc
      have h2 : dictLookup st.query param = none := by
        cases hd : dictLookup st.query param with
        | none => rfl
        | some w => exact absurd (by rw [hd]; rfl) hseen
      split at hok
      · next hf =>
          injection hok with h
          exact Or.inr (Or.inl ⟨hres, h2, hf, h.symm⟩)
      · next f hf =>
          split at hok
          · next he =>
              injection hok with h
              exact Or.inr (Or.inr ⟨f, hres, h2, hf, Or.inl ⟨he, h.symm⟩⟩)
          · next he =>
              rw [Bool.not_eq_true] at he
              split at hok
              · next e hv => exact absurd hok (by simp)
              · next value hv =>
                  injection hok with h
                  exact Or.inr (Or.inr ⟨f, hres, h2, hf,
                    Or.inr ⟨he, value, hv, h.symm⟩⟩)

/-- A loop iteration can only raise out of the parse attempt. -/
theorem processParam_error_cases (cls : QPTranslator V) (qps : QueryParams)
    (st : LoopState V) (param : String) (e : ParseError)
    (herr : processParam cls qps st param = .error e) :
    ∃ f, ¬ param ∈ reservedKeys ∧ dictLookup st.query param = none
      ∧ dictLookup cls.filters param = some f
      ∧ f.exclusions.any (fun e => memB e (qpKeys qps)) = false
      ∧ parseVals qps f param = .error e := by
  rw [processParam] at herr
  split at herr
  · next hc => exact absurd herr (by simp)
  · next hc =>
      push_neg at hc
      obtain ⟨hres, hseen⟩ := hc
      have h2 : dictLookup st.query param = none := by
        cases hd : dictLookup st.query param with
        | none => rfl
        | some w => exact absurd (by rw [hd]; rfl) hseen
      split at herr
      · next hf => exact absurd herr (by simp)
      · next f hf =>
          split at herr
          · next he => exact absurd herr (by simp)
          · next he =>
              rw [Bool.not_eq_true] at he
              split at herr
              · next e2 hv =>
                  injection herr with h
                  exact ⟨f, hres, h2, hf, he, by rw [hv, h]⟩
              · next value hv => exact absurd herr (by simp)

theorem runLoop_nil (cls : QPTranslator V) (qps : QueryParams) (st : LoopState V) :
    runLoop cls qps st [] = .ok st := rfl

theorem runLoop_cons (cls : QPTranslator V) (qps : QueryParams) (st : LoopState V)
    (p : String) (rest : List String) :
    runLoop cls qps st (p :: rest)
      = match processParam cls qps st p with
        | .error e => .error e
        | .ok st' => runLoop cls qps st' rest := rfl

theorem runLoop_cons_ok (cls : QPTranslator V) (qps : QueryParams)
    (st st' : LoopState V) (p : String) (rest : List String)
    (h : processParam cls qps st p = .ok st') :
    runLoop cls qps st (p :: rest) = runLoop cls qps st' rest := by
  rw [runLoop_cons, h]

theorem runLoop_cons_err (cls : QPTranslator V) (qps : QueryParams)
    (st : LoopState V) (p : String) (rest : List String) (e : ParseError)
    (h : processParam cls qps st p = .error e) :
    runLoop cls qps st (p :: rest) = .error e := by
  rw [runLoop_cons, h]

/-- A loop iteration never rebinds an already-resolved key. -/
theorem processParam_preserves_some (cls : QPTranslator V) (qps : QueryParams)
    (st st' : LoopState V) (q P : String) (x : Pred V)
    (hok : processParam cls qps st q = .ok st')
    (hP : dictLookup st.query P = some x) :
    dictLookup st'.query P = some x := by
  rcases processParam_ok_cases cls qps st st' q hok with
    ⟨he, _⟩ | ⟨_, _, _, he⟩ | ⟨f, _, h2, _, ⟨_, he⟩ | ⟨_, v, _, he⟩⟩ <;>
    subst he
  · exact hP
  · exact hP
  · have hqP : ¬ P = q := fun hc => by
      rw [hc] at hP
      rw [h2] at hP
      exact Option.noConfusion hP
    show dictLookup (dictInsert st.query q []) P = some x
    rw [dictLookup_dictInsert, if_neg hqP]
    exact hP
  · have hqP : ¬ P = q := fun hc => by
      rw [hc] at hP
      rw [h2] at hP
      exact Option.noConfusion hP
    show dictLookup (dictInsert st.query q (f.q_func v)) P = some x
    rw [dictLookup_dictInsert, if_neg hqP]
    exact hP

/-- A loop iteration for a different key cannot bind `P`. -/
theorem processParam_preserves_none (cls : QPTranslator V) (qps : QueryParams)
    (st st' : LoopState V) (q P : String) (hqP : q ≠ P)
    (hok : processParam cls qps st q = .ok st')
    (hP : dictLookup st.query P = none) :
    dictLookup st'.query P = none := by
  rcases processParam_ok_cases cls qps st st' q hok with
    ⟨he, _⟩ | ⟨_, _, _, he⟩ | ⟨f, _, h2, _, ⟨_, he⟩ | ⟨_, v, _, he⟩⟩ <;>
    subst he
  · exact hP
  · exact hP
  · show dictLookup (dictInsert st.query q []) P = none
    rw [dictLookup_dictInsert, if_neg (fun hc => hqP hc.symm)]
    exact hP
  · show dictLookup (dictInsert st.query q (f.q_func v)) P = none
    rw [dictLookup_dictInsert, if_neg (fun hc => hqP hc.symm)]
    exact hP

/-- Once a key is bound in `query`, it stays bound to the same predicate. -/
theorem runLoop_preserves_some (cls : QPTranslator V) (qps : QueryParams)
    (st' : LoopState V) (P : String) (x : Pred V) :
    ∀ (params : List String) (st : LoopState V),
      runLoop cls qps st params = .ok st' →
      dictLookup st.query P = some x →
      dictLookup st'.query P = some x := by
  intro params
  induction params with
  | nil =>
    intro st hok hP
    rw [runLoop_nil] at hok
    injection hok with h
    rw [← h]
    exact hP
  | cons q rest ih =>
    intro st hok hP
    rw [runLoop_cons] at hok
    cases hq : processParam cls qps st q with
    | error e =>
      rw [hq] at hok
      exact absurd hok (by simp)
    | ok st1 =>
      rw [hq] at hok
      exact ih st1 hok (processParam_preserves_some cls qps st st1 q P x hq hP)

/-- If the iteration for key `P` (run from any state where `P` is unbound)
binds `P` to `pred₀`, then a completed loop containing `P` leaves `P`
bound to `pred₀`. -/
theorem runLoop_binds (cls : QPTranslator V) (qps : QueryParams)
    (st' : LoopState V) (P : String) (pred₀ : Pred V)
    (hstep : ∀ s : LoopState V, dictLookup s.query P = none →
      processParam cls qps s P
        = .ok { query := dictInsert s.query P pred₀, invalid := s.invalid }) :
    ∀ (params : List String) (st : LoopState V), P ∈ params →
      dictLookup st.query P = none →
      runLoop cls qps st params = .ok st' →
      dictLookup st'.query P = some pred₀ := by
  intro params
  induction params with
  | nil =>
    intro st hmem _ _
    exact absurd hmem (List.not_mem_nil P)
  | cons q rest ih =>
    intro st hmem hP hok
    rw [runLoop_cons] at hok
    by_cases hq : q = P
    · subst hq
      rw [hstep st hP] at hok
      refine runLoop_preserves_some cls qps st' q pred₀ rest _ hok ?_
      show dictLookup (dictInsert st.query q pred₀) q = some pred₀
      rw [dictLookup_dictInsert, if_pos rfl]
    · cases hs : processParam cls qps st q with
      | error e =>
        rw [hs] at hok
        exact absurd hok (by simp)
      | ok st1 =>
        rw [hs] at hok
        have hmem' : P ∈ rest := by
          rcases List.mem_cons.mp hmem with hc | hc
          · exact absurd hc.symm hq
          · exact hc
        exact ih st1 hmem'
          (processParam_preserves_none cls qps st st1 q P hq hs hP) hok

/-- If the iteration for key `P` raises (from any state where `P` is
unbound), a loop containing `P` cannot complete. -/
theorem runLoop_must_fail (cls : QPTranslator V) (qps : QueryParams)
    (P : String)
    (hstep : ∀ s : LoopState V, dictLookup s.query P = none →
      ∃ e, processParam cls qps s P = .error e) :
    ∀ (params : List String) (st : LoopState V), P ∈ params →
      dictLookup st.query P = none →
      ∃ e, runLoop cls qps st params = .error e := by
  intro params
  induction params with
  | nil =>
    intro st hmem _
    exact absurd hmem (List.not_mem_nil P)
  | cons q rest ih =>
    intro st hmem hP
    by_cases hq : q = P
    · subst hq
      obtain ⟨e, he⟩ := hstep st hP
      exact ⟨e, runLoop_cons_err cls qps st q rest e he⟩
    · cases hs : processParam cls qps st q with
      | error e => exact ⟨e, runLoop_cons_err cls qps st q rest e hs⟩
      | ok st1 =>
        have hmem' : P ∈ rest := by
          rcases List.mem_cons.mp hmem with hc | hc
          · exact absurd hc.symm hq
          · exact hc
        obtain ⟨e, he⟩ := ih st1 hmem'
          (processParam_preserves_none cls qps st st1 q P hq hs hP)
        exact ⟨e, by rw [runLoop_cons_ok cls qps st st1 q rest hs]; exact he⟩

/-- A loop failure is the failure of one of its iterations. -/
theorem runLoop_error_src (cls : QPTranslator V) (qps : QueryParams)
    (e : ParseError) :
    ∀ (params : List String) (st : LoopState V),
      runLoop cls qps st params = .error e →
      ∃ q, q ∈ params ∧ ∃ s : LoopState V, processParam cls qps s q = .error e := by
  intro params
  induction params with
  | nil =>
    intro st h
    rw [runLoop_nil] at h
    exact absurd h (by simp)
  | cons q rest ih =>
    intro st h
    rw [runLoop_cons] at h
    cases hq : processParam cls qps st q with
    | error e2 =>
      rw [hq] at h
      injection h with h2
      exact ⟨q, List.mem_cons_self q rest, st, by rw [hq, h2]⟩
    | ok st1 =>
      rw [hq] at h
      obtain ⟨q2, hq2, s, hs⟩ := ih st1 h
      exact ⟨q2, List.mem_cons_of_mem q hq2, s, hs⟩

/-! ## `parse` unfolding lemmas -/

theorem parse_of_loop_error (cls : QPTranslator V) (qps : QueryParams)
    (e : ParseError) (h : processParams cls qps = .error e) :
    cls.parse qps = .error e := by
  unfold QPTranslator.parse
  simp only [h]

theorem parse_of_invalid (cls : QPTranslator V) (qps : QueryParams)
    (st : LoopState V) (h : processParams cls qps = .ok st)
    (hne : st.invalid ≠ []) :
    cls.parse qps
      = .error (.badRequest
          ("Invalid query params: " ++ String.intercalate ", " st.invalid)) := by
  unfold QPTranslator.parse
  simp only [h]
  rw [if_neg hne]

theorem parse_of_clean (cls : QPTranslator V) (qps : QueryParams)
    (st : LoopState V) (h : processParams cls qps = .ok st)
    (hinv : st.invalid = [])
    (hreq : checkRequiredFilters cls (st.query.map Prod.fst) = .ok ()) :
    cls.parse qps
      = .ok { query_list := st.query.map Prod.snd
              sort := qpGetlist qps "sort_by"
              limit := extractPage qps "limit"
              offset := extractPage qps "offset" } := by
  unfold QPTranslator.parse
  simp only [h]
  rw [if_pos hinv, hreq]

theorem parse_of_missing_required (cls : QPTranslator V) (qps : QueryParams)
    (st : LoopState V) (h : processParams cls qps = .ok st)
    (hinv : st.invalid = [])
    (hne : cls.required_filter_set ≠ [])
    (hmiss : undefinedRequired cls (st.query.map Prod.fst) ≠ []) :
    cls.parse qps
      = .error (.badRequest ("Required query params: "
          ++ String.intercalate ", " (undefinedRequired cls (st.query.map Prod.fst)))) := by
  unfold QPTranslator.parse
  simp only [h]
  rw [if_pos hinv, checkRequiredFilters, if_neg hne, if_neg hmiss]

/-- The result shape of every successful parse. -/
theorem parse_ok_shape (cls : QPTranslator V) (qps : QueryParams)
    (r : ParseResult V) (h : cls.parse qps = .ok r) :
    ∃ st : LoopState V, processParams cls qps = .ok st
      ∧ r = { query_list := st.query.map Prod.snd
              sort := qpGetlist qps "sort_by"
              limit := extractPage qps "limit"
              offset := extractPage qps "offset" } := by
  unfold QPTranslator.parse at h
  cases hp : processParams cls qps with
  | error e =>
    simp only [hp] at h
    exact absurd h (by simp)
  | ok st =>
    simp only [hp] at h
    by_cases hinv : st.invalid = []
    · rw [if_pos hinv] at h
      cases hr : checkRequiredFilters cls (st.query.map Prod.fst) with
      | error e =>
        rw [hr] at h
        exact absurd h (by simp)
      | ok u =>
        rw [hr] at h
        injection h with h2
        exact ⟨st, rfl, h2.symm⟩
    · rw [if_neg hinv] at h
      exact absurd h (by simp)

/-! ## Characterization of the collected invalid names -/

/-- The loop records exactly the non-reserved keys with no filter, in key
order, and continues past each of them. -/
theorem runLoop_invalid_spec (cls : QPTranslator V) (qps : QueryParams) :
    ∀ (params : List String) (st st' : LoopState V),
      (∀ k, (dictLookup st.query k).isSome = true →
        (dictLookup cls.filters k).isSome = true) →
      params.Nodup →
      (∀ k, k ∈ params → k ∉ st.invalid) →
      runLoop cls qps st params = .ok st' →
      st'.invalid = st.invalid
        ++ params.filter
            (fun k => !(memB k reservedKeys) && (dictLookup cls.filters k).isNone) := by
  intro params
  induction params with
  | nil =>
    intro st st' _ _ _ hok
    rw [runLoop_nil] at hok
    injection hok with h
    rw [← h, List.filter_nil, List.append_nil]
  | cons q rest ih =>
    intro st st' hqinv hnd hfresh hok
    rw [runLoop_cons] at hok
    cases hq : processParam cls qps st q with
    | error e =>
      rw [hq] at hok
      exact absurd hok (by simp)
    | ok st1 =>
      rw [hq] at hok
      have hndr : rest.Nodup := (List.nodup_cons.mp hnd).2
      have hqrest : q ∉ rest := (List.nodup_cons.mp hnd).1
      rcases processParam_ok_cases cls qps st st1 q hq with
        ⟨rfl, hres | hseen⟩ | ⟨hres, hunb, hfil, rfl⟩ |
        ⟨f, hres, hunb, hfil, ⟨hexc, rfl⟩ | ⟨hexc, value, hval, rfl⟩⟩
      · -- reserved key: dropped from the filter, state unchanged
        have hpred : (!(memB q reservedKeys)
            && (dictLookup cls.filters q).isNone) = false := by
          rw [(memB_iff q reservedKeys).mpr hres]
          rfl
        rw [List.filter_cons, hpred]
        simp only [Bool.false_eq_true, if_false]
        exact ih st1 st' hqinv hndr
          (fun k hk => hfresh k (List.mem_cons_of_mem q hk)) hok
      · -- key already resolved: its filter exists, dropped, state unchanged
        have hpred : (!(memB q reservedKeys)
            && (dictLookup cls.filters q).isNone) = false := by
          obtain ⟨w, hw⟩ := Option.isSome_iff_exists.mp (hqinv q hseen)
          rw [hw]
          simp
        rw [List.filter_cons, hpred]
        simp only [Bool.false_eq_true, if_false]
        exact ih st1 st' hqinv hndr
          (fun k hk => hfresh k (List.mem_cons_of_mem q hk)) hok
      · -- unknown key: recorded, loop continues
        have hqi : q ∉ st.invalid := hfresh q (List.mem_cons_self q rest)
        have hset : setInsert st.invalid q = st.invalid ++ [q] := by
          rw [setInsert, if_neg hqi]
        have hpred : (!(memB q reservedKeys)
            && (dictLookup cls.filters q).isNone) = true := by
          have hm : memB q reservedKeys = false := by
            cases hmb : memB q reservedKeys with
            | false => rfl
            | true => exact absurd ((memB_iff q reservedKeys).mp hmb) hres
          rw [hm, hfil]
          rfl
        rw [List.filter_cons, hpred, if_pos rfl]
        have hres2 := ih { query := st.query, invalid := setInsert st.invalid q } st'
          hqinv hndr
          (by
            intro k hk
            show k ∉ setInsert st.invalid q
            rw [hset, List.mem_append]
            push_neg
            refine ⟨hfresh k (List.mem_cons_of_mem q hk), ?_⟩
            rw [List.mem_singleton]
            intro hc
            exact hqrest (hc ▸ hk))
          hok
        rw [hres2]
        show setInsert st.invalid q ++ _ = _
        rw [hset, List.append_assoc, List.singleton_append]
      · -- suppressed by exclusion: resolved with the empty predicate
        have hpred : (!(memB q reservedKeys)
            && (dictLookup cls.filters q).isNone) = false := by
          rw [hfil]
          simp
        rw [List.filter_cons, hpred]
        simp only [Bool.false_eq_true, if_false]
        refine ih { query := dictInsert st.query q [], invalid := st.invalid } st'
          ?_ hndr (fun k hk => hfresh k (List.mem_cons_of_mem q hk)) hok
        intro k hk
        have hk2 : (dictLookup (dictInsert st.query q []) k).isSome = true := hk
        rw [dictLookup_dictInsert] at hk2
        by_cases hkq : k = q
        · rw [hkq, hfil]
          rfl
        · rw [if_neg hkq] at hk2
          exact hqinv k hk2
      · -- parsed normally: resolved with the built predicate
        have hpred : (!(memB q reservedKeys)
            && (dictLookup cls.filters q).isNone) = false := by
          rw [hfil]
          simp
        rw [List.filter_cons, hpred]
        simp only [Bool.false_eq_true, if_false]
        refine ih { query := dictInsert st.query q (f.q_func value)
                    invalid := st.invalid } st'
          ?_ hndr (fun k hk => hfresh k (List.mem_cons_of_mem q hk)) hok
        intro k hk
        have hk2 : (dictLookup (dictInsert st.query q (f.q_func value)) k).isSome
            = true := hk
        rw [dictLookup_dictInsert] at hk2
        by_cases hkq : k = q
        · rw [hkq, hfil]
          rfl
        · rw [if_neg hkq] at hk2
          exact hqinv k hk2

/-! ## `parseVals` lemmas -/

theorem parseVals_many_ok (qps : QueryParams) (f : Filter V) (param : String)
    (vs : List V) (hmany : f.many = true)
    (hmap : mapParser f.tParser (qpGetlist qps param) = .ok vs) :
    parseVals qps f param = .ok (.inr vs) := by
  rw [parseVals, if_pos hmany]
  simp only [hmap]

theorem parseVals_many_valueError (qps : QueryParams) (f : Filter V)
    (param : String) (m : String) (hmany : f.many = true)
    (hmap : mapParser f.tParser (qpGetlist qps param) = .valueError m) :
    parseVals qps f param = .error (.badRequest m) := by
  rw [parseVals, if_pos hmany]
  simp only [hmap]

theorem parseVals_many_otherError (qps : QueryParams) (f : Filter V)
    (param : String) (m : String) (hmany : f.many = true)
    (hmap : mapParser f.tParser (qpGetlist qps param) = .otherError m) :
    parseVals qps f param = .error (.internal "t_parser can only raise a ValueError") := by
  rw [parseVals, if_pos hmany]
  simp only [hmap]

theorem parseVals_single_ok (qps : QueryParams) (f : Filter V) (param : String)
    (s : String) (v : V) (hmany : f.many = false) (hs : qpGet qps param = some s)
    (hv : f.tParser s = .ok v) :
    parseVals qps f param = .ok (.inl v) := by
  rw [parseVals, if_neg (by rw [hmany]; exact Bool.false_ne_true), hs]
  simp only [Option.getD_some, hv]

theorem parseVals_single_valueError (qps : QueryParams) (f : Filter V)
    (param : String) (s m : String) (hmany : f.many = false)
    (hs : qpGet qps param = some s) (hv : f.tParser s = .valueError m) :
    parseVals qps f param = .error (.badRequest m) := by
  rw [parseVals, if_neg (by rw [hmany]; exact Bool.false_ne_true), hs]
  simp only [Option.getD_some, hv]

theorem parseVals_single_otherError (qps : QueryParams) (f : Filter V)
    (param : String) (s m : String) (hmany : f.many = false)
    (hs : qpGet qps param = some s) (hv : f.tParser s = .otherError m) :
    parseVals qps f param = .error (.internal "t_parser can only raise a ValueError") := by
  rw [parseVals, if_neg (by rw [hmany]; exact Bool.false_ne_true), hs]
  simp only [Option.getD_some, hv]

/-- A well-behaved parser (one that never raises a foreign exception)
keeps the whole list comprehension free of foreign exceptions. -/
theorem mapParser_no_otherError (p : String → ParserOut V)
    (hp : ∀ s m, p s ≠ .otherError m) :
    ∀ (l : List String) (m : String), mapParser p l ≠ .otherError m := by
  intro l
  induction l with
  | nil =>
    intro m hc
    rw [mapParser] at hc
    exact ParserOut.noConfusion hc
  | cons s rest ih =>
    intro m hc
    rw [mapParser] at hc
    cases hs : p s with
    | ok v =>
      rw [hs] at hc
      cases hr : mapParser p rest with
      | ok vs => rw [hr] at hc; exact ParserOut.noConfusion hc
      | valueError m2 => rw [hr] at hc; exact ParserOut.noConfusion hc
      | otherError m2 => exact ih m2 hr
    | valueError m2 =>
      rw [hs] at hc
      exact ParserOut.noConfusion hc
    | otherError m2 => exact hp s m2 hs

/-- With a well-behaved parser, every `parseVals` failure is a 400 client
error carrying a `ValueError` message. -/
theorem parseVals_error_form (qps : QueryParams) (f : Filter V) (param : String)
    (e : ParseError) (hp : ∀ s m, f.tParser s ≠ .otherError m)
    (he : parseVals qps f param = .error e) :
    ∃ m, e = .badRequest m := by
  rw [parseVals] at he
  by_cases hmany : f.many = true
  · rw [if_pos hmany] at he
    cases hmap : mapParser f.tParser (qpGetlist qps param) with
    | ok vs => rw [hmap] at he; exact absurd he (by simp)
    | valueError m =>
      rw [hmap] at he
      injection he with h
      exact ⟨m, h.symm⟩
    | otherError m => exact absurd hmap (mapParser_no_otherError f.tParser hp _ m)
  · rw [if_neg hmany] at he
    cases hv : f.tParser ((qpGet qps param).getD "") with
    | ok v => rw [hv] at he; exact absurd he (by simp)
    | valueError m =>
      rw [hv] at he
      injection he with h
      exact ⟨m, h.symm⟩
    | otherError m => exact absurd hv (hp _ m)

/-! ## Replacing one filter's parser and predicate builder -/

/-- Rebind the descriptor registered under `n` (used to express that a
suppressed descriptor's parser and builder are never consulted). -/
def setFilter (cls : QPTranslator V) (n : String) (f : Filter V) : QPTranslator V :=
  { cls with filters := dictInsert cls.filters n f }

theorem setFilter_required (cls : QPTranslator V) (n : String) (f : Filter V) :
    (setFilter cls n f).required_filter_set = cls.required_filter_set := rfl

theorem setFilter_lookup_self (cls : QPTranslator V) (n : String) (f : Filter V) :
    dictLookup (setFilter cls n f).filters n = some f := by
  show dictLookup (dictInsert cls.filters n f) n = some f
  rw [dictLookup_dictInsert, if_pos rfl]

theorem setFilter_lookup_other (cls : QPTranslator V) (n q : String) (f : Filter V)
    (h : ¬ q = n) : dictLookup (setFilter cls n f).filters q = dictLookup cls.filters q := by
  show dictLookup (dictInsert cls.filters n f) q = _
  rw [dictLookup_dictInsert, if_neg h]

/-- If the descriptor under `P` is suppressed by an exclusion hit, the loop
iteration behaves identically whatever parser and predicate builder the
descriptor under `P` carries. -/
theorem processParam_congr_excluded (cls : QPTranslator V) (qps : QueryParams)
    (P : String) (f : Filter V)
    (hf : dictLookup cls.filters P = some f)
    (hexc : f.exclusions.any (fun e => memB e (qpKeys qps)) = true)
    (g : String → ParserOut V) (h' : (V ⊕ List V) → Pred V) :
    ∀ (st : LoopState V) (q : String),
      processParam (setFilter cls P { f with tParser := g, q_func := h' }) qps st q
        = processParam cls qps st q := by
  intro st q
  by_cases hc : q ∈ reservedKeys ∨ (dictLookup st.query q).isSome = true
  · rcases hc with hc | hc
    · rw [processParam_reserved _ _ _ _ hc, processParam_reserved _ _ _ _ hc]
    · rw [processParam_seen _ _ _ _ hc, processParam_seen _ _ _ _ hc]
  · push_neg at hc
    obtain ⟨h1, hseen⟩ := hc
    have h2 : dictLookup st.query q = none := by
      cases hd : dictLookup st.query q with
      | none => rfl
      | some w => exact absurd (by rw [hd]; rfl) hseen
    by_cases hqP : q = P
    · subst hqP
      rw [processParam_excluded cls qps st q f h1 h2 hf hexc]
      exact processParam_excluded _ qps st q _ h1 h2
        (setFilter_lookup_self cls q _) hexc
    · rw [processParam, processParam, if_neg (by push_neg; exact ⟨h1, hseen⟩),
        if_neg (by push_neg; exact ⟨h1, hseen⟩),
        setFilter_lookup_other cls P q _ hqP]

theorem runLoop_congr (cls' cls : QPTranslator V) (qps : QueryParams)
    (hstep : ∀ (st : LoopState V) (q : String),
      processParam cls' qps st q = processParam cls qps st q) :
    ∀ (params : List String) (st : LoopState V),
      runLoop cls' qps st params = runLoop cls qps st params := by
  intro params
  induction params with
  | nil => intro st; rfl
  | cons q rest ih =>
    intro st
    rw [runLoop_cons, runLoop_cons, hstep st q]
    cases processParam cls qps st q with
    | error e => rfl
    | ok st1 => exact ih st1

theorem checkRequired_congr (cls' cls : QPTranslator V)
    (hreq : cls'.required_filter_set = cls.required_filter_set)
    (existing : List String) :
    checkRequiredFilters cls' existing = checkRequiredFilters cls existing := by
  rw [checkRequiredFilters, checkRequiredFilters, undefinedRequired,
    undefinedRequired, hreq]

/-- Two registries with identical loop behaviour and identical required
sets parse identically. -/
theorem parse_congr (cls' cls : QPTranslator V) (qps : QueryParams)
    (hreq : cls'.required_filter_set = cls.required_filter_set)
    (hstep : ∀ (st : LoopState V) (q : String),
      processParam cls' qps st q = processParam cls qps st q) :
    cls'.parse qps = cls.parse qps := by
  unfold QPTranslator.parse
  have hloop : processParams cls' qps = processParams cls qps :=
    runLoop_congr cls' cls qps hstep _ _
  rw [hloop]
  cases hp : processParams cls qps with
  | error e => rfl
  | ok st =>
    simp only [checkRequired_congr cls' cls hreq]

/-! ## Registry resolution lemmas -/

theorem filter_keys_nil (l : List (String × α)) (n : String)
    (h : n ∉ l.map Prod.fst) : l.filter (fun q => q.1 = n) = [] := by
  induction l with
  | nil => rfl
  | cons p rest ih =>
    rw [List.map_cons, List.mem_cons] at h
    push_neg at h
    have hpn : ¬ p.1 = n := fun hc => h.1 hc.symm
    rw [List.filter_cons, if_neg (by simp [hpn])]
    exact ih h.2

/-- On a duplicate-free dict the last binding is the only binding. -/
theorem valsLast_eq_dictLookup (d : List (String × α)) (n : String)
    (hd : (d.map Prod.fst).Nodup) : valsLast d n = dictLookup d n := by
  induction d with
  | nil => rfl
  | cons p rest ih =>
    rw [List.map_cons, List.nodup_cons] at hd
    rw [dictLookup_cons]
    by_cases hp : p.1 = n
    · rw [if_pos hp]
      have hnr : n ∉ rest.map Prod.fst := hp ▸ hd.1
      rw [valsLast, List.filter_cons, if_pos (by simp [hp]),
        filter_keys_nil rest n hnr, List.map_cons, List.map_nil]
      rfl
    · rw [if_neg hp, ← ih hd.2, valsLast, valsLast, List.filter_cons,
        if_neg (by simp [hp])]

theorem dictLookup_dictUpdate_nodup (o d : List (String × α)) (n : String)
    (ho : (o.map Prod.fst).Nodup) :
    dictLookup (dictUpdate d o) n = optOr (dictLookup o n) (dictLookup d n) := by
  rw [dictLookup_dictUpdate, valsLast_eq_dictLookup o n ho]

/-- Merging the bases' registries in base-list order means a lookup hits
the *last* base that binds the name. -/
theorem mergeBases_lookup (n : String) :
    ∀ (bases : List (QPTranslator V)),
      (∀ b ∈ bases, (b.filters.map Prod.fst).Nodup) →
      dictLookup (bases.foldl (fun acc b => dictUpdate acc b.filters) []) n
        = bases.reverse.findSome? (fun b => dictLookup b.filters n) := by
  intro bases
  induction bases using List.reverseRecOn with
  | nil => intro _; rfl
  | append_singleton l b ih =>
    intro hb
    rw [List.foldl_append, List.foldl_cons, List.foldl_nil, List.reverse_append,
      List.reverse_singleton, List.singleton_append]
    rw [dictLookup_dictUpdate_nodup _ _ n
      (hb b (List.mem_append.mpr (Or.inr (List.mem_singleton_self b))))]
    rw [ih (fun x hx => hb x (List.mem_append.mpr (Or.inl hx)))]
    cases hbn : dictLookup b.filters n with
    | some w => rw [List.findSome?_cons, hbn, optOr_some]
    | none => rw [List.findSome?_cons, hbn]; rfl

theorem mergeBases_nodupKeys :
    ∀ (bases : List (QPTranslator V)) (d : List (String × Filter V)),
      (d.map Prod.fst).Nodup →
      ((bases.foldl (fun acc b => dictUpdate acc b.filters) d).map Prod.fst).Nodup := by
  intro bases
  induction bases with
  | nil => intro d hd; exact hd
  | cons b rest ih =>
    intro d hd
    rw [List.foldl_cons]
    exact ih (dictUpdate d b.filters) (dictUpdate_nodupKeys b.filters d hd)

theorem new_filters (bases : List (QPTranslator V))
    (nsf : List (String × Filter V)) :
    (QPTranslatorMetaclass.new bases nsf).filters
      = dictUpdate (bases.foldl (fun acc b => dictUpdate acc b.filters) []) nsf := rfl

theorem new_required (bases : List (QPTranslator V))
    (nsf : List (String × Filter V)) :
    (QPTranslatorMetaclass.new bases nsf).required_filter_set
      = (nsf.filter (fun p => p.2.is_required)).map Prod.fst := rfl

/-! ## Claim theorems -/

/-- C1: for every translator type, the required-name set contains exactly
the names of descriptors declared directly on that type whose required
flag is true; inherited required flags are not re-collected, so a subtype
that redeclares nothing has an empty required set and its required check
never fails at parse time. -/
theorem required_set_directly_declared_only (V : Type)
    (bases : List (QPTranslator V)) (nsf : List (String × Filter V)) :
    (∀ n : String,
      n ∈ (QPTranslatorMetaclass.new bases nsf).required_filter_set
        ↔ ∃ f : Filter V, (n, f) ∈ nsf ∧ f.is_required = true)
    ∧ (QPTranslatorMetaclass.new bases
        ([] : List (String × Filter V))).required_filter_set = []
    ∧ ∀ existing : List String,
        checkRequiredFilters
          (QPTranslatorMetaclass.new bases ([] : List (String × Filter V))) existing
          = .ok () := by
  refine ⟨?_, rfl, fun existing => rfl⟩
  intro n
  rw [new_required]
  constructor
  · intro hm
    obtain ⟨p, hp, he⟩ := List.mem_map.mp hm
    obtain ⟨hpn, hr⟩ := List.mem_filter.mp hp
    refine ⟨p.2, ?_, by simpa using hr⟩
    rw [← he]
    exact hpn
  · rintro ⟨f, hf, hr⟩
    exact List.mem_map.mpr ⟨(n, f), List.mem_filter.mpr ⟨hf, by simpa using hr⟩, rfl⟩

/-- C7: the merged descriptor map combines the ancestors' resolved maps in
ancestor-list order (a later-listed ancestor wins a name collision), then
the directly-declared descriptors are applied last (the latest declaration
for a name winning), so a subtype descriptor overrides any inherited
descriptor of the same name; merging is total (never an error) and the
resolved registry's names are unique. -/
theorem merged_registry_override (V : Type) (bases : List (QPTranslator V))
    (nsf : List (String × Filter V)) (n : String)
    (hb : ∀ b ∈ bases, (b.filters.map Prod.fst).Nodup) :
    dictLookup (QPTranslatorMetaclass.new bases nsf).filters n
      = optOr (valsLast nsf n)
          (bases.reverse.findSome? (fun b => dictLookup b.filters n))
    ∧ ((QPTranslatorMetaclass.new bases nsf).filters.map Prod.fst).Nodup := by
  constructor
  · rw [new_filters, dictLookup_dictUpdate, mergeBases_lookup n bases hb]
  · rw [new_filters]
    exact dictUpdate_nodupKeys nsf _ (mergeBases_nodupKeys bases [] List.nodup_nil)

def c7fA : Filter Nat :=
  { q_func := fun _ => [("base1", 1)], tParser := fun _ => .ok 1 }

def c7fB : Filter Nat :=
  { q_func := fun _ => [("base2", 2)], tParser := fun _ => .ok 2 }

def c7fC : Filter Nat :=
  { q_func := fun _ => [("sub", 3)], tParser := fun _ => .ok 3 }

def c7base1 : QPTranslator Nat := { filters := [("a", c7fA), ("c", c7fA)] }

def c7base2 : QPTranslator Nat := { filters := [("a", c7fB), ("b", c7fB)] }

def c7sub : QPTranslator Nat :=
  QPTranslatorMetaclass.new [c7base1, c7base2] [("a", c7fC)]

/-- C7 witness: with two bases both binding `a` and a subtype redeclaring
`a`, the subtype's descriptor wins `a`, the later base wins `b`, the
earlier base still provides `c`, and the merged keys are unique. -/
theorem merged_registry_override_witness :
    dictLookup c7sub.filters "a" = some c7fC
    ∧ dictLookup c7sub.filters "b" = some c7fB
    ∧ dictLookup c7sub.filters "c" = some c7fA
    ∧ (c7sub.filters.map Prod.fst).Nodup := by
  have hb : ∀ b ∈ [c7base1, c7base2], (b.filters.map Prod.fst).Nodup := by
    intro b hbm
    rcases List.mem_cons.mp hbm with h | h
    · subst h
      decide
    · rcases List.mem_cons.mp h with h2 | h2
      · subst h2
        decide
      · exact absurd h2 (List.not_mem_nil b)
  refine ⟨?_, ?_, ?_, ?_⟩
  · exact (merged_registry_override Nat [c7base1, c7base2] [("a", c7fC)] "a" hb).1.trans rfl
  · exact (merged_registry_override Nat [c7base1, c7base2] [("a", c7fC)] "b" hb).1.trans rfl
  · exact (merged_registry_override Nat [c7base1, c7base2] [("a", c7fC)] "c" hb).1.trans rfl
  · exact (merged_registry_override Nat [c7base1, c7base2] [("a", c7fC)] "a" hb).2

/-- C8: the boolean parser accepts exactly the literals `"true"` and
`"false"` (case-sensitively), and fails on every other string with the
invalid-value kind and the message naming both accepted literals. -/
theorem bool_parser_spec :
    boolParser "true" = .ok true
    ∧ boolParser "false" = .ok false
    ∧ ∀ v : String, v ≠ "true" → v ≠ "false" →
        boolParser v = .valueError "Field with bool must be 'false' or 'true'" := by
  refine ⟨by decide, by decide, ?_⟩
  intro v h1 h2
  rw [boolParser, if_pos (by simp [h1, h2])]

/-- C8 witness: a capitalized literal is rejected with the documented
message, and the two accepted literals parse. -/
theorem bool_parser_spec_witness :
    boolParser "True" = .valueError "Field with bool must be 'false' or 'true'"
    ∧ boolParser "true" = .ok true :=
  ⟨bool_parser_spec.2.2 "True" (by decide) (by decide), bool_parser_spec.1⟩

/-! ## Pagination extraction helpers -/

theorem dictInsert_of_none (d : List (String × α)) (k : String) (v : α)
    (h : dictLookup d k = none) : dictInsert d k v = d ++ [(k, v)] := by
  rw [dictInsert, h]

theorem extractPage_of_none (qps : QueryParams) (key : String)
    (h : qpGet qps key = none) : extractPage qps key = none := by
  rw [extractPage, h]

theorem extractPage_of_some (qps : QueryParams) (key s : String)
    (h : qpGet qps key = some s) :
    extractPage qps key = if pyIsDigit s then some (strToInt s) else none := by
  rw [extractPage, h]

theorem strToInt_nonneg (s : String) : 0 ≤ strToInt s := by
  rw [strToInt]
  exact Int.ofNat_nonneg _

theorem extractPage_some_iff (qps : QueryParams) (key : String) (n : Int) :
    extractPage qps key = some n
      ↔ ∃ s, qpGet qps key = some s ∧ pyIsDigit s = true ∧ n = strToInt s := by
  cases hs : qpGet qps key with
  | none =>
    rw [extractPage_of_none qps key hs]
    constructor
    · intro h
      exact absurd h (by simp)
    · rintro ⟨s2, hs2, _, _⟩
      exact absurd hs2 (by simp)
  | some s =>
    rw [extractPage_of_some qps key s hs]
    by_cases hd : pyIsDigit s = true
    · rw [if_pos hd]
      constructor
      · intro h
        injection h with h
        exact ⟨s, rfl, hd, h.symm⟩
      · rintro ⟨s2, hs2, hd2, hn⟩
        have he := Option.some.inj hs2
        subst he
        rw [hn]
    · rw [if_neg hd]
      constructor
      · intro h
        exact absurd h (by simp)
      · rintro ⟨s2, hs2, hd2, hn⟩
        have he := Option.some.inj hs2
        subst he
        exact absurd hd2 hd

/-- C6: a successful parse sets `limit` (resp. `offset`) to the parsed
integer exactly when the key is present with an all-digits value, the
value is then non-negative; and malformed pagination values never cause
an error (a request carrying only pagination keys parses successfully
whatever their values, given no required filter). -/
theorem pagination_extraction (V : Type) (cls : QPTranslator V)
    (qps : QueryParams) :
    (∀ r : ParseResult V, cls.parse qps = .ok r →
      (∀ n : Int, r.limit = some n ↔
        ∃ s, qpGet qps "limit" = some s ∧ pyIsDigit s = true ∧ n = strToInt s)
      ∧ (∀ n : Int, r.offset = some n ↔
        ∃ s, qpGet qps "offset" = some s ∧ pyIsDigit s = true ∧ n = strToInt s)
      ∧ (∀ n : Int, r.limit = some n → 0 ≤ n)
      ∧ (∀ n : Int, r.offset = some n → 0 ≤ n))
    ∧ (∀ s₁ s₂ : String, cls.required_filter_set = [] →
        ∃ r : ParseResult V, cls.parse [("limit", s₁), ("offset", s₂)] = .ok r) := by
  constructor
  · intro r hr
    obtain ⟨st, hst, hshape⟩ := parse_ok_shape cls qps r hr
    have hlim : r.limit = extractPage qps "limit" := by rw [hshape]
    have hoff : r.offset = extractPage qps "offset" := by rw [hshape]
    refine ⟨?_, ?_, ?_, ?_⟩
    · intro n
      rw [hlim]
      exact extractPage_some_iff qps "limit" n
    · intro n
      rw [hoff]
      exact extractPage_some_iff qps "offset" n
    · intro n hn
      rw [hlim] at hn
      obtain ⟨s, _, _, hs⟩ := (extractPage_some_iff qps "limit" n).mp hn
      rw [hs]
      exact strToInt_nonneg s
    · intro n hn
      rw [hoff] at hn
      obtain ⟨s, _, _, hs⟩ := (extractPage_some_iff qps "offset" n).mp hn
      rw [hs]
      exact strToInt_nonneg s
  · intro s₁ s₂ hreq
    have h1 : dictLookup [("limit", s₁)] "offset" = none := by
      rw [dictLookup_single, if_neg (by decide)]
    have h2 : qpDict [("limit", s₁), ("offset", s₂)]
        = [("limit", s₁), ("offset", s₂)] := by
      show dictInsert (dictInsert [] "limit" s₁) "offset" s₂ = _
      rw [dictInsert_of_none [] "limit" s₁ (dictLookup_nil "limit"), List.nil_append,
        dictInsert_of_none [("limit", s₁)] "offset" s₂ h1]
      rfl
    have hkeys : qpKeys [("limit", s₁), ("offset", s₂)] = ["limit", "offset"] := by
      rw [qpKeys, h2]
      rfl
    have hloop : processParams cls [("limit", s₁), ("offset", s₂)]
        = .ok { query := [], invalid := [] } := by
      rw [processParams, hkeys,
        runLoop_cons_ok cls _ _ _ _ _ (processParam_reserved cls _ _ _ (by decide)),
        runLoop_cons_ok cls _ _ _ _ _ (processParam_reserved cls _ _ _ (by decide)),
        runLoop_nil]
    refine ⟨_, parse_of_clean cls _ _ hloop rfl ?_⟩
    rw [checkRequiredFilters, if_pos hreq]

def c6cls : QPTranslator Nat := {}

/-- C6 witness: with no filters and no required names, `limit=abc` and
`offset=7` parse successfully. -/
theorem pagination_extraction_witness :
    ∃ r : ParseResult Nat,
      QPTranslator.parse c6cls [("limit", "abc"), ("offset", "7")] = .ok r :=
  (pagination_extraction Nat c6cls []).2 "abc" "7" rfl

/-- C2: when any name in a descriptor's exclusion set occurs among the
request's keys, that parameter is resolved with the empty predicate: the
iteration succeeds (no conflict error), the completed loop leaves the
parameter bound to `[]`, the parameter is absent from the missing-required
set, and the parse result is unchanged under any replacement of the
descriptor's parser and predicate builder (neither is ever invoked). -/
theorem exclusion_suppresses (V : Type) (cls : QPTranslator V)
    (qps : QueryParams) (P : String) (f : Filter V)
    (hP : P ∈ qpKeys qps) (hres : ¬ P ∈ reservedKeys)
    (hf : dictLookup cls.filters P = some f)
    (hexc : f.exclusions.any (fun e => memB e (qpKeys qps)) = true) :
    (∀ st : LoopState V, dictLookup st.query P = none →
      processParam cls qps st P
        = .ok { query := dictInsert st.query P [], invalid := st.invalid })
    ∧ (∀ st : LoopState V, processParams cls qps = .ok st →
        dictLookup st.query P = some ([] : Pred V)
        ∧ ¬ P ∈ undefinedRequired cls (st.query.map Prod.fst))
    ∧ (∀ (g : String → ParserOut V) (h' : (V ⊕ List V) → Pred V),
        QPTranslator.parse (setFilter cls P { f with tParser := g, q_func := h' }) qps
          = cls.parse qps) := by
  have hstep : ∀ st : LoopState V, dictLookup st.query P = none →
      processParam cls qps st P
        = .ok { query := dictInsert st.query P [], invalid := st.invalid } :=
    fun st hst => processParam_excluded cls qps st P f hres hst hf hexc
  refine ⟨hstep, ?_, ?_⟩
  · intro st hloop
    have hbound : dictLookup st.query P = some ([] : Pred V) :=
      runLoop_binds cls qps st P [] hstep (qpKeys qps)
        { query := [], invalid := [] } hP rfl hloop
    refine ⟨hbound, ?_⟩
    intro hmem
    have hnotin := (List.mem_filter.mp hmem).2
    have hin : P ∈ st.query.map Prod.fst :=
      (dictLookup_isSome_iff st.query P).mp (by rw [hbound]; rfl)
    rw [decide_eq_true_eq] at hnotin
    exact hnotin hin
  · intro g h'
    exact parse_congr _ cls qps (setFilter_required cls P _)
      (processParam_congr_excluded cls qps P f hf hexc g h')

def c2fa : Filter String :=
  { q_func := fun _ => [("fa", "x")], tParser := fun s => .ok s
    exclusions := ["b"] }

def c2fb : Filter String :=
  { q_func := fun _ => [("fb", "y")], tParser := fun s => .ok s }

def c2cls : QPTranslator String := { filters := [("a", c2fa), ("b", c2fb)] }

/-- C2 witness: with `a` excluding `b` and both keys present, the
iteration for `a` resolves it to the empty predicate without error. -/
theorem exclusion_suppresses_witness :
    processParam c2cls [("a", "1"), ("b", "2")] { query := [], invalid := [] } "a"
      = .ok { query := [("a", [])], invalid := [] } :=
  (exclusion_suppresses String c2cls [("a", "1"), ("b", "2")] "a" c2fa
    (by decide) (by decide) rfl (by decide)).1 { query := [], invalid := [] } rfl

/-- C9: the exclusion check tests membership against the full request key
set, which includes the reserved keys; a descriptor whose exclusion list
names a present reserved key is therefore suppressed (empty predicate,
parser and builder never consulted), even though reserved keys are
themselves never matched against descriptors (their iterations are
skipped). -/
theorem reserved_key_exclusion (V : Type) (cls : QPTranslator V)
    (qps : QueryParams) (P e : String) (f : Filter V)
    (hf : dictLookup cls.filters P = some f)
    (he : e ∈ f.exclusions) (heres : e ∈ reservedKeys) (hek : e ∈ qpKeys qps) :
    (∀ st : LoopState V, ¬ P ∈ reservedKeys → dictLookup st.query P = none →
      processParam cls qps st P
        = .ok { query := dictInsert st.query P [], invalid := st.invalid })
    ∧ (∀ (g : String → ParserOut V) (h' : (V ⊕ List V) → Pred V)
        (st : LoopState V) (q : String),
        processParam (setFilter cls P { f with tParser := g, q_func := h' }) qps st q
          = processParam cls qps st q)
    ∧ (∀ (st : LoopState V) (k : String), k ∈ reservedKeys →
        processParam cls qps st k = .ok st)
    ∧ (∀ (k v : String) (qps' : QueryParams), (k, v) ∈ qps' → k ∈ qpKeys qps') := by
  have hexc : f.exclusions.any (fun x => memB x (qpKeys qps)) = true :=
    List.any_eq_true.mpr ⟨e, he, (memB_iff e (qpKeys qps)).mpr hek⟩
  refine ⟨?_, ?_, ?_, ?_⟩
  · intro st hres hst
    exact processParam_excluded cls qps st P f hres hst hf hexc
  · intro g h' st q
    exact processParam_congr_excluded cls qps P f hf hexc g h' st q
  · intro st k hk
    exact processParam_reserved cls qps st k hk
  · intro k v qps' hkv
    exact (mem_qpKeys_iff qps' k).mpr ⟨v, hkv⟩

def c9fa : Filter String :=
  { q_func := fun _ => [("fa", "x")], tParser := fun s => .ok s
    exclusions := ["limit"] }

def c9cls : QPTranslator String := { filters := [("a", c9fa)] }

/-- C9 witness: a descriptor excluding the reserved key `limit` is
suppressed when `limit` is supplied. -/
theorem reserved_key_exclusion_witness :
    processParam c9cls [("a", "1"), ("limit", "5")]
        { query := [], invalid := [] } "a"
      = .ok { query := [("a", [])], invalid := [] } :=
  (reserved_key_exclusion String c9cls [("a", "1"), ("limit", "5")] "a" "limit"
    c9fa rfl (by decide) (by decide) (by decide)).1
    { query := [], invalid := [] } (by decide) rfl

/-- C3 (amended): a `multi` descriptor collects every value supplied under
its key in order of appearance, parses each independently and passes the
ordered sequence to the predicate builder; a non-`multi` descriptor whose
key is supplied more than once parses and uses the *last* occurrence's
value (`qps.get` reads the dict view built with later items overriding
earlier ones). -/
theorem multi_and_single_value_semantics (V : Type) (cls : QPTranslator V)
    (qps : QueryParams) (P : String) (f : Filter V)
    (hP : P ∈ qpKeys qps) (hres : ¬ P ∈ reservedKeys)
    (hf : dictLookup cls.filters P = some f)
    (hexc : f.exclusions.any (fun e => memB e (qpKeys qps)) = false) :
    (qpGetlist qps P = (qps.filter (fun p => p.1 = P)).map Prod.snd)
    ∧ (qpGet qps P = valsLast qps P)
    ∧ (f.many = true → ∀ vs : List V,
        mapParser f.tParser (qpGetlist qps P) = .ok vs →
        ∀ st : LoopState V, processParams cls qps = .ok st →
          dictLookup st.query P = some (f.q_func (.inr vs)))
    ∧ (f.many = false → ∀ (s : String) (v : V),
        qpGet qps P = some s → f.tParser s = .ok v →
        ∀ st : LoopState V, processParams cls qps = .ok st →
          dictLookup st.query P = some (f.q_func (.inl v))) := by
  refine ⟨rfl, qpGet_eq_valsLast qps P, ?_, ?_⟩
  · intro hmany vs hmap st hloop
    have hstep : ∀ s : LoopState V, dictLookup s.query P = none →
        processParam cls qps s P
          = .ok { query := dictInsert s.query P (f.q_func (.inr vs))
                  invalid := s.invalid } :=
      fun s hs => processParam_parsed cls qps s P f (.inr vs) hres hs hf hexc
        (parseVals_many_ok qps f P vs hmany hmap)
    exact runLoop_binds cls qps st P (f.q_func (.inr vs)) hstep (qpKeys qps)
      { query := [], invalid := [] } hP rfl hloop
  · intro hmany s v hs hv st hloop
    have hstep : ∀ s2 : LoopState V, dictLookup s2.query P = none →
        processParam cls qps s2 P
          = .ok { query := dictInsert s2.query P (f.q_func (.inl v))
                  invalid := s2.invalid } :=
      fun s2 hs2 => processParam_parsed cls qps s2 P f (.inl v) hres hs2 hf hexc
        (parseVals_single_ok qps f P s v hmany hs hv)
    exact runLoop_binds cls qps st P (f.q_func (.inl v)) hstep (qpKeys qps)
      { query := [], invalid := [] } hP rfl hloop

def c3f : Filter String :=
  { q_func := fun v =>
      match v with
      | .inl s => [("eq", s)]
      | .inr l => [("in", String.intercalate "|" l)]
    tParser := fun s => .ok s }

def c3mf : Filter String :=
  { q_func := fun v =>
      match v with
      | .inl s => [("eq", s)]
      | .inr l => [("in", String.intercalate "|" l)]
    tParser := fun s => .ok s
    many := true }

def c3cls : QPTranslator String := { filters := [("a", c3f)] }

def c3mcls : QPTranslator String := { filters := [("tag", c3mf), ("a", c3f)] }

/-- C3 counterexample: a non-`multi` descriptor supplied twice uses the
*last* occurrence's value, not the first: `a=1&a=2` builds the predicate
from `"2"`, never from `"1"`. -/
theorem single_value_uses_last_counterexample :
    QPTranslator.parse c3cls [("a", "1"), ("a", "2")]
      = .ok { query_list := [[("eq", "2")]], sort := [], limit := none
              offset := none }
    ∧ ∀ r : ParseResult String,
        QPTranslator.parse c3cls [("a", "1"), ("a", "2")] = .ok r →
        r.query_list ≠ [[("eq", "1")]] := by
  have h : QPTranslator.parse c3cls [("a", "1"), ("a", "2")]
      = .ok { query_list := [[("eq", "2")]], sort := [], limit := none
              offset := none } := rfl
  refine ⟨h, ?_⟩
  intro r hr
  have h2 := Except.ok.inj (h.symm.trans hr)
  rw [← h2]
  decide

/-- C3 witness: `tag=x&tag=y` (multi) builds from the ordered sequence
`["x", "y"]`, and `a=1&a=2` (single) builds from the last value `"2"`. -/
theorem multi_and_single_value_semantics_witness :
    dictLookup ({ query := [("tag", [("in", "x|y")]), ("a", [("eq", "2")])]
                  invalid := [] } : LoopState String).query "tag"
      = some [("in", "x|y")]
    ∧ dictLookup ({ query := [("tag", [("in", "x|y")]), ("a", [("eq", "2")])]
                    invalid := [] } : LoopState String).query "a"
      = some [("eq", "2")] := by
  have hloop : processParams c3mcls [("tag", "x"), ("tag", "y"), ("a", "1"), ("a", "2")]
      = .ok { query := [("tag", [("in", "x|y")]), ("a", [("eq", "2")])]
              invalid := [] } := rfl
  constructor
  · exact (multi_and_single_value_semantics String c3mcls
      [("tag", "x"), ("tag", "y"), ("a", "1"), ("a", "2")] "tag" c3mf
      (by decide) (by decide) rfl (by decide)).2.2.1 rfl ["x", "y"] rfl _ hloop
  · exact (multi_and_single_value_semantics String c3mcls
      [("tag", "x"), ("tag", "y"), ("a", "1"), ("a", "2")] "a" c3f
      (by decide) (by decide) rfl (by decide)).2.2.2 rfl "2" "2" rfl rfl _ hloop

theorem runLoop_append (cls : QPTranslator V) (qps : QueryParams) :
    ∀ (l1 l2 : List String) (st : LoopState V),
      runLoop cls qps st (l1 ++ l2)
        = match runLoop cls qps st l1 with
          | .error e => .error e
          | .ok st1 => runLoop cls qps st1 l2 := by
  intro l1
  induction l1 with
  | nil => intro l2 st; rfl
  | cons q rest ih =>
    intro l2 st
    rw [List.cons_append, runLoop_cons, runLoop_cons]
    cases processParam cls qps st q with
    | error e => rfl
    | ok st1 => exact ih l2 st1

/-- C4: if a descriptor's parser fails with the invalid-value kind
(`ValueError`), `parse` propagates immediately as a client 400 carrying
the parser's message — not batched with other errors, and the keys after
the failing one (`l2`, arbitrary here) are never processed; if the parser
fails with any other kind, `parse` surfaces the internal `Warning`
condition, which is distinguishable from every client-facing 400. -/
theorem parser_failure_fail_fast (V : Type) (cls : QPTranslator V)
    (qps : QueryParams) (P : String) (f : Filter V) (l1 l2 : List String)
    (st : LoopState V)
    (hsplit : qpKeys qps = l1 ++ P :: l2)
    (hpre : runLoop cls qps { query := [], invalid := [] } l1 = .ok st)
    (hres : ¬ P ∈ reservedKeys) (hunb : dictLookup st.query P = none)
    (hf : dictLookup cls.filters P = some f)
    (hexc : f.exclusions.any (fun e => memB e (qpKeys qps)) = false) :
    (∀ m, parseVals qps f P = .error (.badRequest m) →
      cls.parse qps = .error (.badRequest m))
    ∧ (∀ m, parseVals qps f P = .error (.internal m) →
      cls.parse qps = .error (.internal m))
    ∧ (∀ s m, f.many = false → qpGet qps P = some s → f.tParser s = .valueError m →
        parseVals qps f P = .error (.badRequest m))
    ∧ (∀ s m, f.many = false → qpGet qps P = some s → f.tParser s = .otherError m →
        parseVals qps f P = .error (.internal "t_parser can only raise a ValueError"))
    ∧ (∀ m, f.many = true → mapParser f.tParser (qpGetlist qps P) = .valueError m →
        parseVals qps f P = .error (.badRequest m))
    ∧ (∀ m, f.many = true → mapParser f.tParser (qpGetlist qps P) = .otherError m →
        parseVals qps f P = .error (.internal "t_parser can only raise a ValueError"))
    ∧ (∀ a b : String, (ParseError.internal a) ≠ (ParseError.badRequest b)) := by
  have hfail : ∀ e : ParseError, parseVals qps f P = .error e →
      cls.parse qps = .error e := by
    intro e hv
    have hstepP := processParam_failed cls qps st P f e hres hunb hf hexc hv
    have hloop : processParams cls qps = .error e := by
      rw [processParams, hsplit, runLoop_append, hpre]
      exact runLoop_cons_err cls qps st P l2 e hstepP
    exact parse_of_loop_error cls qps e hloop
  refine ⟨fun m hm => hfail _ hm, fun m hm => hfail _ hm, ?_, ?_, ?_, ?_, ?_⟩
  · intro s m hmany hs hv
    exact parseVals_single_valueError qps f P s m hmany hs hv
  · intro s m hmany hs hv
    exact parseVals_single_otherError qps f P s m hmany hs hv
  · intro m hmany hmap
    exact parseVals_many_valueError qps f P m hmany hmap
  · intro m hmany hmap
    exact parseVals_many_otherError qps f P m hmany hmap
  · intro a b hc
    exact ParseError.noConfusion hc

def c4f : Filter String :=
  { q_func := fun _ => [("fb", "y")], tParser := fun _ => .valueError "boom" }

def c4cls : QPTranslator String := { filters := [("b", c4f)] }

/-- C4 witness: a failing parser's message propagates as the 400 detail,
with an unknown key later in the request left unprocessed (the batched
unknown-parameter error is not raised). -/
theorem parser_failure_fail_fast_witness :
    QPTranslator.parse c4cls [("b", "x"), ("zz", "1")]
      = .error (.badRequest "boom") :=
  (parser_failure_fail_fast String c4cls [("b", "x"), ("zz", "1")] "b" c4f
    [] ["zz"] { query := [], invalid := [] } rfl rfl (by decide) rfl rfl
    (by decide)).1 "boom" rfl

/-- C5: every non-reserved key with no matching descriptor is recorded and
the loop continues; when the loop completes, the recorded names are
exactly the non-reserved descriptor-less keys in key order, and if any
were recorded, `parse` fails with the single batched message
`"Invalid query params: "` followed by the comma-joined names. -/
theorem unknown_params_batched (V : Type) (cls : QPTranslator V)
    (qps : QueryParams) :
    (∀ (st : LoopState V) (P : String), ¬ P ∈ reservedKeys →
      dictLookup st.query P = none → dictLookup cls.filters P = none →
      processParam cls qps st P
        = .ok { query := st.query, invalid := setInsert st.invalid P })
    ∧ (∀ st : LoopState V, processParams cls qps = .ok st →
        st.invalid = (qpKeys qps).filter
          (fun k => !(memB k reservedKeys) && (dictLookup cls.filters k).isNone)
        ∧ (st.invalid ≠ [] → cls.parse qps
            = .error (.badRequest ("Invalid query params: "
                ++ String.intercalate ", " st.invalid)))) := by
  constructor
  · intro st P hres hunb hfil
    exact processParam_unknown cls qps st P hres hunb hfil
  · intro st hloop
    constructor
    · have h := runLoop_invalid_spec cls qps (qpKeys qps)
        { query := [], invalid := [] } st
        (by
          intro k hk
          rw [dictLookup_nil] at hk
          exact absurd hk (by simp))
        (qpKeys_nodup qps)
        (fun k _ hk => absurd hk (List.not_mem_nil k))
        hloop
      rw [h]
      rfl
    · intro hne
      exact parse_of_invalid cls qps st hloop hne

def c5cls : QPTranslator Nat := {}

/-- C5 witness: two unknown names yield one batched message listing both. -/
theorem unknown_params_batched_witness :
    QPTranslator.parse c5cls [("x", "1"), ("y", "2")]
      = .error (.badRequest "Invalid query params: x, y") := by
  have h := (unknown_params_batched Nat c5cls [("x", "1"), ("y", "2")]).2
    { query := [], invalid := ["x", "y"] } rfl
  exact h.2 (by decide)

/-- C10: when the request contains both an unknown non-reserved key and a
key whose (well-behaved) descriptor is not suppressed and whose value
makes its parser fail with the invalid-value kind, the loop itself fails,
so `parse` raises a parser's 400 and never reaches the batched
unknown-parameter check — regardless of where the keys sit in the
request. -/
theorem parser_error_preempts_unknown (V : Type) (cls : QPTranslator V)
    (qps : QueryParams) (u P : String) (f : Filter V)
    (hcontract : ∀ (k : String) (g : Filter V),
      dictLookup cls.filters k = some g → ∀ (s m : String), g.tParser s ≠ .otherError m)
    (hu : u ∈ qpKeys qps) (hures : ¬ u ∈ reservedKeys)
    (hulook : dictLookup cls.filters u = none)
    (hP : P ∈ qpKeys qps) (hPres : ¬ P ∈ reservedKeys)
    (hPf : dictLookup cls.filters P = some f)
    (hPexc : f.exclusions.any (fun e => memB e (qpKeys qps)) = false)
    (hPfail : ∃ e, parseVals qps f P = .error e) :
    ∃ m, processParams cls qps = .error (.badRequest m)
      ∧ cls.parse qps = .error (.badRequest m)
      ∧ (∀ st : LoopState V, processParams cls qps ≠ .ok st)
      ∧ ∃ (k : String) (g : Filter V), k ∈ qpKeys qps
          ∧ dictLookup cls.filters k = some g
          ∧ parseVals qps g k = .error (.badRequest m) := by
  obtain ⟨e0, he0⟩ := hPfail
  have hstep : ∀ s : LoopState V, dictLookup s.query P = none →
      ∃ e, processParam cls qps s P = .error e :=
    fun s hs => ⟨e0, processParam_failed cls qps s P f e0 hPres hs hPf hPexc he0⟩
  obtain ⟨e, herr⟩ := runLoop_must_fail cls qps P hstep (qpKeys qps)
    { query := [], invalid := [] } hP rfl
  have herr2 : processParams cls qps = .error e := herr
  obtain ⟨k, hk, s', hs'⟩ := runLoop_error_src cls qps e (qpKeys qps)
    { query := [], invalid := [] } herr
  obtain ⟨g, _, _, hg, _, hgv⟩ := processParam_error_cases cls qps s' k e hs'
  obtain ⟨m, hm⟩ := parseVals_error_form qps g k e (hcontract k g hg) hgv
  subst hm
  refine ⟨m, herr2, parse_of_loop_error cls qps _ herr2, ?_, k, g, hk, hg, hgv⟩
  intro st hc
  rw [herr2] at hc
  exact Except.noConfusion hc

def c10f : Filter String :=
  { q_func := fun _ => [("fb", "y")], tParser := fun _ => .valueError "boom" }

def c10cls : QPTranslator String := { filters := [("b", c10f)] }

/-- C10 witness: with the unknown key first (`zz=1&b=x`), `parse` still
raises a parser 400, not the batched unknown-parameter error. -/
theorem parser_error_preempts_unknown_witness :
    ∃ m, QPTranslator.parse c10cls [("zz", "1"), ("b", "x")]
      = .error (.badRequest m) := by
  have hcontract : ∀ (k : String) (g : Filter String),
      dictLookup c10cls.filters k = some g →
      ∀ (s m : String), g.tParser s ≠ .otherError m := by
    intro k g hg s m
    rw [show c10cls.filters = [("b", c10f)] from rfl, dictLookup_single] at hg
    by_cases hk : "b" = k
    · rw [if_pos hk] at hg
      have hgf := Option.some.inj hg
      subst hgf
      intro hc
      exact ParserOut.noConfusion hc
    · rw [if_neg hk] at hg
      exact absurd hg (by simp)
  obtain ⟨m, _, hparse, _⟩ := parser_error_preempts_unknown String c10cls
    [("zz", "1"), ("b", "x")] "zz" "b" c10f hcontract
    (by decide) (by decide) rfl (by decide) (by decide) rfl (by decide)
    ⟨.badRequest "boom", rfl⟩
  exact ⟨m, hparse⟩

end QpTrans
